import Mathlib

/-!
Verification of the streaming multipart/form-data decoder and the
asynchronous task orchestrators of `node-simple-http-server`.

Shallow embedding conventions:
* Byte buffers (`Buffer`) are `List Nat` (byte values).
* `buf.indexOf(val, off)` is `bufIndexOf`, returning `-1 : Int` on failure
  exactly as Node does.
* Generators are modelled as the finite list of values they yield.
* The event-loop microtask queue of `src/async.mjs` is modelled explicitly
  as a FIFO queue of thunks (`Th`) driven by a fuelled, hence executable,
  scheduler (`runFuel` / `run`).  An asynchronous task (`MTask`) is
  abstracted by the number of scheduler ticks before it invokes its
  continuation (`delay`) and the values it passes to it (`results`).
* File sinks are abstracted by the list of bytes they have received
  (`HFile.content`); backpressure is absorbed into task delays.
-/

/-- JavaScript values that flow through the emitters of `src/async.mjs`:
`undefined`, the two exported symbols `DONE_EVENT` and `END_EVENT`,
numbers, and strings/buffers. -/
inductive Val
  | undef
  | doneSym
  | endSym
  | nat (n : Nat)
  | str (s : List Nat)
deriving DecidableEq, Repr

/-- Observable events of a run: an `emitter.emit(name, args...)` call, or the
invocation of a listener callback registered with `.once(END_EVENT, cb)`. -/
inductive Ev
  | emit (name : Val) (args : List Val)
  | cb
deriving DecidableEq, Repr

/-- `emitter.emit.apply(emitter, results)` from `src/async.mjs` lines 35-38
and 59-64: the first result value is the event name, the rest are the
event arguments; with no results the name is `undefined`. -/
def emOf (rs : List Val) : Ev := .emit (rs.headD .undef) (rs.drop 1)

/-- The `emitter.emit(END_EVENT)` broadcast. -/
def endEv : Ev := .emit .endSym []

/-- ASCII byte list of a string literal (all source constants are ASCII). -/
def strBytes (s : String) : List Nat := s.toList.map Char.toNat

/-- `Buffer.from('\r\n')` (`EOL`, http-form.mjs line 9). -/
def eolBytes : List Nat := strBytes "\r\n"

/-- `Buffer.from('--')` (`SEP`, http-form.mjs line 15). -/
def sepBytes : List Nat := strBytes "--"

/-- Scan of `buf` (already shortened to the suffix starting at position `i`)
for the first position at which `val` occurs as a contiguous sub-list. -/
def findSub (val : List Nat) : List Nat → Nat → Option Nat
  | [], i => if val = [] then some i else none
  | b :: rest, i =>
    if val <+: (b :: rest) then some i else findSub val rest (i + 1)

/-- `buf.indexOf(val, off)` of Node: index of the first occurrence of the
byte sequence `val` at a position `≥ off`, or `-1` when there is none. -/
def bufIndexOf (buf val : List Nat) (off : Nat) : Int :=
  match findSub val (buf.drop off) off with
  | some i => (i : Int)
  | none => -1

/-- `SplitResult` (util.mjs lines 59-101): a view into `buf` delimited by a
start index and an end index; the end index is stored exactly as produced
by `buf.indexOf`, hence it is `-1` in the final view yielded after the
search failed. -/
structure SplitResult where
  buf : List Nat
  start : Nat
  endIdx : Int
deriving DecidableEq, Repr

/-- `SplitResult.toString` (util.mjs lines 98-100), i.e.
`buf.toString(encoding, start, end)` with Node's clamping: a start at or
past the buffer end, or an end (coerced to an integer) at or before the
start, gives the empty string. -/
def SplitResult.toStr (r : SplitResult) : List Nat :=
  let len := r.buf.length
  let e : Int := if (len : Int) < r.endIdx then (len : Int) else r.endIdx
  if e ≤ (r.start : Int) then []
  else ((r.buf.drop r.start).take (e - (r.start : Int)).toNat)

/-- Loop of the generator `splitBuffer` (util.mjs lines 110-117), with fuel.
Each iteration yields the view `[start, end)` up to the next separator
occurrence; when `indexOf` fails the loop exits and one last view is
yielded whose `end` is the failed search result `-1`.  The fuel-out case
is unreachable for a nonempty separator under the fuel supplied by
`splitBuffer` below. -/
def splitBufferGo (buf sep : List Nat) : Nat → Nat → List SplitResult
  | 0, start => [⟨buf, start, -1⟩]
  | f + 1, start =>
    let e := bufIndexOf buf sep start
    if e = -1 then [⟨buf, start, -1⟩]
    else ⟨buf, start, e⟩ :: splitBufferGo buf sep f (e.toNat + sep.length)

/-- `splitBuffer(buf, sep, start)` (util.mjs lines 110-117): the finite list
of views yielded by the generator.  (For an empty separator the source
generator never terminates; the model is only used, and only claimed
faithful, for nonempty separators.) -/
def splitBuffer (buf sep : List Nat) (start : Nat) : List SplitResult :=
  splitBufferGo buf sep (buf.length + 1) start

/-- An asynchronous continuation-style task (`AsyncTask` of `src/async.mjs`):
when started it invokes its single callback exactly once, after `delay`
further turns of the scheduler (0 = synchronously upon being run, as the
tasks of the spec's orchestrator scenarios do; a positive delay models a
backpressure wait such as `stream.once('drain', ...)`), passing `results`
to it. -/
structure MTask where
  delay : Nat
  results : List Val
deriving DecidableEq, Repr

/-- Pending microtask-queue entries for the two orchestrators of
`src/async.mjs`:
* `qrun rem` — the `task.bind(undefined, it.next())` thunk scheduled by
  `asyncQueue`'s `factory` (line 46), with `rem` the tasks the iterator
  has still to produce;
* `qwait k rs rem` — a started `asyncQueue` task whose continuation will
  fire with results `rs` after `k` more scheduler turns;
* `pwait k rs` — an `asyncParallel` task scheduled by
  `queueMicrotask(func.bind(undefined, callback))` (line 66) whose
  continuation fires with `rs` after `k` turns;
* `pend` — `queueMicrotask(emitter.emit.bind(emitter, END_EVENT))`
  scheduled for an empty task list (line 69). -/
inductive Th
  | qrun (rem : List MTask)
  | qwait (k : Nat) (rs : List Val) (rem : List MTask)
  | pwait (k : Nat) (rs : List Val)
  | pend
deriving DecidableEq, Repr

/-- Scheduler state: the FIFO microtask queue, the trace of events emitted
so far, `itpos` = how many times `asyncParallel`'s counting iterator `it`
has been advanced by `it.next()`, and `n` = the total number of tasks
(`asyncQueue` does not use `itpos`/`n`). -/
structure Sched where
  queue : List Th
  trace : List Ev
  itpos : Nat
  n : Nat
deriving DecidableEq, Repr

/-- Run one thunk (the head of the microtask queue has already been removed
from `s.queue`).  Transcribes `src/async.mjs`:
* `qrun []`: `next.done` holds, so `emitter.emit(END_EVENT)` (line 41);
* `qrun (t :: ts)`: `next.value(callback)` (line 43) starts `t`; a
  synchronous continuation runs the callback (line 35-38) at once —
  emit the results and let `factory` schedule the next task — otherwise
  the continuation is left pending;
* `qwait`: a pending `asyncQueue` continuation counts down and then runs
  the callback;
* `pwait 0 rs`: `asyncParallel`'s callback (lines 59-64): emit the
  results, advance `it` once, and emit `END_EVENT` when it is exhausted
  (`itpos ≥ n` before this advance);
* `pend`: the deferred `END_EVENT` emission for an empty task list. -/
def stepTh (th : Th) (s : Sched) : Sched :=
  match th with
  | .qrun [] => { s with trace := s.trace ++ [endEv] }
  | .qrun (t :: ts) =>
    if t.delay = 0 then
      { s with trace := s.trace ++ [emOf t.results], queue := s.queue ++ [.qrun ts] }
    else
      { s with queue := s.queue ++ [.qwait (t.delay - 1) t.results ts] }
  | .qwait 0 rs ts =>
    { s with trace := s.trace ++ [emOf rs], queue := s.queue ++ [.qrun ts] }
  | .qwait (k + 1) rs ts => { s with queue := s.queue ++ [.qwait k rs ts] }
  | .pwait 0 rs =>
    if s.n ≤ s.itpos then
      { s with trace := s.trace ++ [emOf rs, endEv], itpos := s.itpos + 1 }
    else
      { s with trace := s.trace ++ [emOf rs], itpos := s.itpos + 1 }
  | .pwait (k + 1) rs => { s with queue := s.queue ++ [.pwait k rs] }
  | .pend => { s with trace := s.trace ++ [endEv] }

/-- Termination weight of one thunk: every scheduler step strictly
decreases the summed weight of the queue. -/
def thWeight : Th → Nat
  | .qrun rem => 1 + (rem.map (fun t => t.delay + 2)).sum
  | .qwait k _ rem => k + 2 + (rem.map (fun t => t.delay + 2)).sum
  | .pwait k _ => k + 1
  | .pend => 1

/-- Summed weight of a microtask queue. -/
def schedMeasure (q : List Th) : Nat := (q.map thWeight).sum

/-- Fuelled scheduler loop: pop the head of the microtask queue and run it
until the queue is empty, returning the event trace.  The fuel-out case is
unreachable whenever the fuel exceeds `schedMeasure` of the queue. -/
def runFuel : Nat → Sched → List Ev
  | 0, s => s.trace
  | f + 1, s =>
    match s.queue with
    | [] => s.trace
    | th :: rest => runFuel f (stepTh th { s with queue := rest })

/-- Run the scheduler to completion (the supplied fuel always suffices,
since every step strictly decreases `schedMeasure`). -/
def run (s : Sched) : List Ev := runFuel (schedMeasure s.queue + 1) s

/-- State of `asyncQueue(functions)` (async.mjs lines 32-49) at the moment
it returns: `factory()` has been called once, so a single `task` thunk is
on the microtask queue; nothing has been emitted. -/
def asyncQueueInit (ts : List MTask) : Sched :=
  { queue := [.qrun ts], trace := [], itpos := 0, n := 0 }

/-- Full emission trace of `asyncQueue(functions)`. -/
def asyncQueueRunTrace (ts : List MTask) : List Ev := run (asyncQueueInit ts)

/-- State of `asyncParallel(functions)` (async.mjs lines 56-72) at the
moment it returns: every task has been deferred onto the scheduler in
submission order (lines 65-67), the trailing synchronous `it.next()`
(line 68) has advanced the counting iterator once, and for an empty task
list a deferred `END_EVENT` emission has been queued; nothing has been
emitted. -/
def asyncParallelInit (ts : List MTask) : Sched :=
  { queue := ts.map (fun t => .pwait t.delay t.results) ++
      (if ts.isEmpty then [.pend] else []),
    trace := [], itpos := 1, n := ts.length }

/-- Full emission trace of `asyncParallel(functions)`. -/
def asyncParallelRunTrace (ts : List MTask) : List Ev := run (asyncParallelInit ts)

/-- The completion emission of one task. -/
def emOfT (t : MTask) : Ev := emOf t.results

/-- The queued thunk of a pending `asyncParallel` task. -/
def pwOf (p : Nat × List Val) : Th := .pwait p.1 p.2

/-- Effect of `emitter.once(END_EVENT, callback)` registered immediately
after the orchestrator call returns (http-form.mjs lines 181 and 191-192):
the callback runs at the first `END_EVENT` emission of the trace. -/
def attachOnceEnd : List Ev → List Ev
  | [] => []
  | e :: rest => if e = endEv then e :: .cb :: rest else e :: attachOnceEnd rest

/-- JavaScript `\s` on ASCII bytes (space, tab, LF, VT, FF, CR). -/
def isSpaceByte (b : Nat) : Bool :=
  b = 32 || b = 9 || b = 10 || b = 11 || b = 12 || b = 13

/-- The literal part of `REG_EXP_FILENAME` (http-form.mjs line 20). -/
def filenameLit : List Nat := strBytes "filename=\""

/-- Match attempt of `/filename="(.+)"\s*$/` starting at position `p` of
`s`: the literal must occur at `p`; the capture `(.+)` is greedy, so the
closing quote is the last position `k` after which only whitespace
remains, with a nonempty capture of non-line-terminator characters.
Returns the capture group. -/
def tryFilenameAt (s : List Nat) (p : Nat) : Option (List Nat) :=
  if filenameLit <+: s.drop p then
    let cs := p + filenameLit.length
    ((List.range s.length).reverse).findSome? (fun k =>
      if cs < k ∧ s.getD k 0 = 34 ∧ (s.drop (k + 1)).all isSpaceByte ∧
          ((s.take k).drop cs).all (fun b => !(b = 13 || b = 10)) then
        some ((s.take k).drop cs)
      else none)
  else none

/-- `REG_EXP_FILENAME.exec(s)[1]` (http-form.mjs lines 20 and 212):
leftmost match of `/filename="(.+)"\s*$/`, returning capture group 1, or
`none` where the source dereferences `null` and throws. -/
def execFilename (s : List Nat) : Option (List Nat) :=
  (List.range (s.length + 1)).findSome? (tryFilenameAt s)

/-- Match attempt of `/(\S+\/\S+)\s*$/` starting at position `p` of `s`:
the first `\S+` is greedy with backtracking, so the slash is placed at the
largest `len1` such that `s[p .. p+len1)` is all non-whitespace and
`s[p+len1] = '/'`; the second `\S+` takes the maximal non-whitespace run,
after which only whitespace may remain.  Returns the capture group. -/
def tryCtAt (s : List Nat) (p : Nat) : Option (List Nat) :=
  ((List.range (s.length + 1)).reverse).findSome? (fun len1 =>
    if 1 ≤ len1 ∧ p + len1 < s.length ∧
        ((s.take (p + len1)).drop p).length = len1 ∧
        ((s.take (p + len1)).drop p).all (fun b => !isSpaceByte b) ∧
        s.getD (p + len1) 0 = 47 then
      let q := p + len1 + 1
      let run2 := ((s.drop q).takeWhile (fun b => !isSpaceByte b)).length
      if 1 ≤ run2 ∧ (s.drop (q + run2)).all isSpaceByte then
        some ((s.take (q + run2)).drop p)
      else none
    else none)

/-- `REG_EXP_CONTENT_TYPE.exec(s)[1]` (http-form.mjs lines 25 and 213):
leftmost match of `/(\S+\/\S+)\s*$/`, returning capture group 1, or
`none` where the source dereferences `null` and throws. -/
def execContentType (s : List Nat) : Option (List Nat) :=
  (List.range (s.length + 1)).findSome? (tryCtAt s)

/-- `HttpFile` (http-form.mjs lines 41-109): the submitted-file metadata
plus the bytes its backing temporary-file sink has received (`content`
abstracts the `TmpDir.createWriteStream()` sink). -/
structure HFile where
  filename : List Nat
  contentType : List Nat
  content : List Nat
deriving DecidableEq, Repr

/-- Exceptions `HttpForm._write` can raise.  All of them are unhandled
JavaScript exceptions in the source, not structured errors:
* `lineUndefined` — a property access on `undefined` when the line
  generator yielded fewer than three views (http-form.mjs lines 206-215);
* `filenameNoMatch` — `REG_EXP_FILENAME.exec(...)` returned `null` and
  line 212 dereferences it (TypeError);
* `contentTypeNoMatch` — `REG_EXP_CONTENT_TYPE.exec(...)` returned `null`
  and line 213 dereferences it (TypeError);
* `lastFileUndefined` — `this.lastFile` is `undefined` with no file yet
  and line 179 reads `.write` on it (TypeError);
* `compareOutOfRange` — `SEP.compare(chunk, ...)` on line 171 called with
  `targetEnd` past the end of the chunk (RangeError). -/
inductive WErr
  | lineUndefined
  | filenameNoMatch
  | contentTypeNoMatch
  | lastFileUndefined
  | compareOutOfRange
deriving DecidableEq, Repr

/-- `HttpForm[NEW_FILE_METHOD](buf, start)` (http-form.mjs lines 203-216):
read three `\r\n`-separated lines starting at `start`, extract the
filename from the first and the content type from the second, build the
new `HttpFile`, and return it together with `third.end + EOL.length`,
the cursor just past the header block.  Errors are the points where the
source throws. -/
def newFileMethod (buf : List Nat) (start : Nat) : Except WErr (HFile × Nat) :=
  match (splitBuffer buf eolBytes start)[0]? with
  | none => .error .lineUndefined
  | some first =>
    match execFilename first.toStr with
    | none => .error .filenameNoMatch
    | some fn =>
      match (splitBuffer buf eolBytes start)[1]? with
      | none => .error .lineUndefined
      | some second =>
        match execContentType second.toStr with
        | none => .error .contentTypeNoMatch
        | some ct =>
          match (splitBuffer buf eolBytes start)[2]? with
          | none => .error .lineUndefined
          | some third => .ok (⟨fn, ct, []⟩, (third.endIdx + 2).toNat)

/-- One write task queued by `HttpForm._write`:
`this.lastFile.write.bind(this.lastFile, chunk.subarray(lo, hi))`, where
`tgt` is the index of `lastFile` (`files.length - 1`) at the moment the
task was pushed. -/
structure WTask where
  tgt : Nat
  lo : Nat
  hi : Nat
deriving DecidableEq, Repr

/-- The code after the scan loop of `_write` (http-form.mjs lines 178-180):
when the cursor has not reached the chunk end, push one more write task
for `chunk.subarray(end)`; with no file yet, `this.lastFile` is
`undefined` and reading `.write` on it throws. -/
def writeTrailing (chunk : List Nat) (files : List HFile) (queue : List WTask)
    (endv : Nat) : Except WErr (List HFile × List WTask) :=
  if endv < chunk.length then
    if files.length = 0 then .error .lastFileUndefined
    else .ok (files, queue ++ [⟨files.length - 1, endv, chunk.length⟩])
  else .ok (files, queue)

/-- The scan loop of `HttpForm._write` (http-form.mjs lines 163-180), with
fuel (the source loop genuinely fails to terminate on some malformed
chunks, when `NEW_FILE_METHOD` consumes a header block lacking its third
line and rewinds the cursor to `(-1) + EOL.length = 1`; the model returns
`none` there).  Per iteration, mirroring the source: a boundary was found
at `start`; with at least one file, queue a write of `[end, start)` to
the last file; if the two bytes after the boundary are `--`, set
`end = chunk.length` and break; otherwise parse the header block,
append the new file, advance `end` past the header, and search for the
next boundary from `end`. -/
def writeScanGo (boundary chunk : List Nat) :
    Nat → List HFile → List WTask → Nat → Int →
    Option (Except WErr (List HFile × List WTask))
  | 0, _, _, _, _ => none
  | fuel + 1, files, queue, endv, start =>
    if start = -1 then some (writeTrailing chunk files queue endv)
    else
      let s := start.toNat
      let queue' :=
        if 0 < files.length then queue ++ [⟨files.length - 1, endv, s⟩] else queue
      if chunk.length < s + boundary.length + sepBytes.length then
        some (.error .compareOutOfRange)
      else if (chunk.drop (s + boundary.length)).take sepBytes.length = sepBytes then
        some (.ok (files, queue'))
      else
        match newFileMethod chunk (s + boundary.length + eolBytes.length) with
        | .error e => some (.error e)
        | .ok (file, e2) =>
          writeScanGo boundary chunk fuel (files ++ [file]) queue' e2
            (bufIndexOf chunk boundary e2)

/-- `HttpForm._write(chunk, _, callback)` up to the `asyncQueue` call:
starting from `end = 0` and `start = chunk.indexOf(this.boundary)`, scan
the chunk, returning the grown file list and the queued write tasks, or
the exception the source throws.  The fuel suffices for every run on
which the source loop terminates. -/
def writeScan (boundary : List Nat) (files : List HFile) (chunk : List Nat) :
    Option (Except WErr (List HFile × List WTask)) :=
  writeScanGo boundary chunk (chunk.length + 2) files [] 0 (bufIndexOf chunk boundary 0)

/-- `chunk.subarray(lo, hi)`: the bytes `[lo, hi)` of the chunk. -/
def chunkSlice (chunk : List Nat) (lo hi : Nat) : List Nat := (chunk.take hi).drop lo

/-- Sequential execution of the queued write tasks, in submission order,
exactly as `asyncQueue` runs them one at a time: each task appends its
chunk slice to the content of its target file's sink
(`HttpFile.write`, http-form.mjs lines 93-99). -/
def runWrites (chunk : List Nat) : List WTask → List HFile → List HFile
  | [], files => files
  | t :: ts, files =>
    runWrites chunk ts
      (match files[t.tgt]? with
       | none => files
       | some f =>
         files.set t.tgt ⟨f.filename, f.contentType, f.content ++ chunkSlice chunk t.lo t.hi⟩)

/-- The write tasks of one chunk as scheduler tasks: `HttpFile.write`
invokes its callback with no arguments (via `queueMicrotask(callback)` or
`stream.once('drain', callback)`), after a delay `ds i` of scheduler
turns modelling the sink's backpressure. -/
def writeTasksOf (queue : List WTask) (ds : Nat → Nat) : List MTask :=
  (List.range queue.length).map (fun i => ⟨ds i, []⟩)

/-- Event trace of `asyncQueue(queue).once(END_EVENT, callback)`
(http-form.mjs line 181) for the queued write tasks of one chunk. -/
def writeTrace (queue : List WTask) (ds : Nat → Nat) : List Ev :=
  attachOnceEnd (asyncQueueRunTrace (writeTasksOf queue ds))

/-- Event trace of `HttpForm._final` (http-form.mjs lines 190-193):
`asyncParallel(this.files.map(f => f.close.bind(f))).once(END_EVENT, callback)`;
each close task invokes its callback with no arguments after `ds i`
scheduler turns. -/
def finalTrace (files : List HFile) (ds : Nat → Nat) : List Ev :=
  attachOnceEnd (asyncParallelRunTrace ((List.range files.length).map (fun i => ⟨ds i, []⟩)))

/-- A dummy file used as the default of list lookups. -/
def hfDummy : HFile := ⟨[], [], []⟩

/-- Decidable equality of `Except` results, for concrete evaluation. -/
instance {e a : Type} [DecidableEq e] [DecidableEq a] : DecidableEq (Except e a)
  | .error x, .error y =>
    if h : x = y then isTrue (by rw [h])
    else isFalse (by intro hc; cases hc; exact h rfl)
  | .error _, .ok _ => isFalse (by intro h; cases h)
  | .ok _, .error _ => isFalse (by intro h; cases h)
  | .ok x, .ok y =>
    if h : x = y then isTrue (by rw [h])
    else isFalse (by intro hc; cases hc; exact h rfl)

/-- The buffer of the `splitBuffer` failing input. -/
def exBufC3 : List Nat := strBytes "a,b"

/-- The boundary buffer `--BOUNDARY` used by the concrete scenarios
(`'--' + contentType.match(/boundary=([^;]+)/)[1]`, http-form.mjs
line 151, for the content type of the spec's scenarios). -/
def exBoundary : List Nat := strBytes "--BOUNDARY"

/-- The single-chunk body of the spec's single-file scenario: boundary,
three-line header block for `a.txt` / `text/plain`, body `hello`, CRLF,
terminal boundary. -/
def exChunkC1 : List Nat :=
  strBytes "--BOUNDARY\r\nContent-Disposition: form-data; name=\"f\"; filename=\"a.txt\"\r\nContent-Type: text/plain\r\n\r\nhello\r\n--BOUNDARY--"

/-- The `Part` produced by the single-file scenario, before any write. -/
def exFileC1 : HFile := ⟨strBytes "a.txt", strBytes "text/plain", []⟩

/-- The write queue produced by scanning the single-file scenario chunk:
one write of `chunk.subarray(100, 107)` to Part 0. -/
def exQueueC1 : List WTask := [⟨0, 100, 107⟩]

/-- A chunk whose first (non-terminal) boundary is followed by a
disposition line that does not match `REG_EXP_FILENAME`. -/
def exChunkBadHeader : List Nat :=
  strBytes "--BOUNDARY\r\nbad line\r\nContent-Type: text/plain\r\n\r\nx\r\n--BOUNDARY--"

/-- A boundary-free, non-empty preamble chunk. -/
def exChunkPreamble : List Nat := strBytes "preamble-bytes"

theorem schedMeasure_nil : schedMeasure [] = 0 := rfl

theorem schedMeasure_cons (th : Th) (q : List Th) :
    schedMeasure (th :: q) = thWeight th + schedMeasure q := by
  simp [schedMeasure]

theorem schedMeasure_append (q r : List Th) :
    schedMeasure (q ++ r) = schedMeasure q + schedMeasure r := by
  simp [schedMeasure]

/-- Every scheduler step strictly decreases the summed queue weight. -/
theorem stepTh_measure (th : Th) (s : Sched) :
    schedMeasure (stepTh th s).queue < thWeight th + schedMeasure s.queue := by
  cases th with
  | qrun rem =>
    cases rem with
    | nil => simp [stepTh, thWeight]
    | cons t ts =>
      by_cases h : t.delay = 0 <;>
        simp [stepTh, h, thWeight, schedMeasure_append, schedMeasure_cons, thWeight] <;>
        simp [schedMeasure, thWeight] <;> omega
  | qwait k rs rem =>
    cases k with
    | zero =>
      simp [stepTh, schedMeasure_append, schedMeasure_cons, thWeight]
      simp [schedMeasure, thWeight]
      omega
    | succ k =>
      simp [stepTh, schedMeasure_append, schedMeasure_cons, thWeight]
      simp [schedMeasure, thWeight]
      omega
  | pwait k rs =>
    cases k with
    | zero =>
      by_cases h : s.n ≤ s.itpos <;> simp [stepTh, h, thWeight]
    | succ k =>
      simp [stepTh, schedMeasure_append, schedMeasure_cons, thWeight]
      simp [schedMeasure]
      omega
  | pend => simp [stepTh, thWeight]

theorem runFuel_cons (f : Nat) (th : Th) (rest : List Th) (tr : List Ev) (ip n : Nat) :
    runFuel (f + 1) ⟨th :: rest, tr, ip, n⟩ = runFuel f (stepTh th ⟨rest, tr, ip, n⟩) := rfl

theorem runFuel_nil (f : Nat) (tr : List Ev) (ip n : Nat) :
    runFuel f ⟨[], tr, ip, n⟩ = tr := by
  cases f <;> rfl

/-- The result of the scheduler does not depend on the fuel, as long as the
fuel exceeds the queue weight. -/
theorem runFuel_irrel (f : Nat) : ∀ (g : Nat) (s : Sched),
    schedMeasure s.queue < f → schedMeasure s.queue < g → runFuel f s = runFuel g s := by
  induction f with
  | zero => intro g s hf; omega
  | succ f ih =>
    intro g s hf hg
    obtain ⟨q, tr, ip, n⟩ := s
    cases q with
    | nil =>
      rw [runFuel_nil, runFuel_nil]
    | cons th rest =>
      cases g with
      | zero => exact absurd hg (by omega)
      | succ g =>
        rw [runFuel_cons, runFuel_cons]
        have hm := stepTh_measure th (⟨rest, tr, ip, n⟩ : Sched)
        have hr : schedMeasure ((⟨rest, tr, ip, n⟩ : Sched).queue) = schedMeasure rest := rfl
        rw [hr] at hm
        have hq : schedMeasure ((⟨th :: rest, tr, ip, n⟩ : Sched).queue) =
            thWeight th + schedMeasure rest := schedMeasure_cons th rest
        rw [hq] at hf hg
        exact ih g (stepTh th ⟨rest, tr, ip, n⟩) (by omega) (by omega)

theorem run_nil (tr : List Ev) (ip n : Nat) : run ⟨[], tr, ip, n⟩ = tr := by
  unfold run
  rw [runFuel_nil]

/-- One-step unfolding of the scheduler. -/
theorem run_cons (th : Th) (rest : List Th) (tr : List Ev) (ip n : Nat) :
    run ⟨th :: rest, tr, ip, n⟩ = run (stepTh th ⟨rest, tr, ip, n⟩) := by
  have hm := stepTh_measure th (⟨rest, tr, ip, n⟩ : Sched)
  have hr : schedMeasure ((⟨rest, tr, ip, n⟩ : Sched).queue) = schedMeasure rest := rfl
  rw [hr] at hm
  unfold run
  have hq : schedMeasure ((⟨th :: rest, tr, ip, n⟩ : Sched).queue) =
      thWeight th + schedMeasure rest := schedMeasure_cons th rest
  rw [hq]
  rw [show thWeight th + schedMeasure rest + 1 = (thWeight th + schedMeasure rest) + 1 from rfl]
  rw [runFuel_cons]
  exact runFuel_irrel _ _ _ (by omega) (by omega)

/-- Trace of an `asyncQueue` task whose pending continuation fires after
`k` more turns, assuming the closed form for the remaining tasks. -/
theorem run_qwait_aux (ts : List MTask)
    (hts : ∀ (tr : List Ev) (ip n : Nat),
      run ⟨[.qrun ts], tr, ip, n⟩ = tr ++ ts.map emOfT ++ [endEv]) :
    ∀ (k : Nat) (rs : List Val) (tr : List Ev) (ip n : Nat),
      run ⟨[.qwait k rs ts], tr, ip, n⟩ = tr ++ emOf rs :: (ts.map emOfT ++ [endEv]) := by
  intro k
  induction k with
  | zero =>
    intro rs tr ip n
    rw [run_cons]
    show run ⟨[Th.qrun ts], tr ++ [emOf rs], ip, n⟩ = _
    rw [hts]
    simp
  | succ k ih =>
    intro rs tr ip n
    rw [run_cons]
    show run ⟨[Th.qwait k rs ts], tr, ip, n⟩ = _
    exact ih rs tr ip n

/-- Closed form of the `asyncQueue` scheduler run: one completion emission
per task, in submission order, then a single `END_EVENT`, whatever the
delays of the individual continuations. -/
theorem run_qrun (ts : List MTask) : ∀ (tr : List Ev) (ip n : Nat),
    run ⟨[.qrun ts], tr, ip, n⟩ = tr ++ ts.map emOfT ++ [endEv] := by
  induction ts with
  | nil =>
    intro tr ip n
    rw [run_cons]
    show run ⟨[], tr ++ [endEv], ip, n⟩ = _
    rw [run_nil]
    simp
  | cons t ts ih =>
    intro tr ip n
    rw [run_cons]
    simp only [stepTh]
    by_cases h : t.delay = 0
    · rw [if_pos h]
      simp only [List.nil_append]
      rw [ih]
      simp [emOfT]
    · rw [if_neg h]
      simp only [List.nil_append]
      rw [run_qwait_aux ts ih (t.delay - 1) t.results tr ip n]
      simp [emOfT]

/-- Closed form of the full `asyncQueue` trace. -/
theorem asyncQueueRunTrace_eq (ts : List MTask) :
    asyncQueueRunTrace ts = ts.map emOfT ++ [endEv] := by
  unfold asyncQueueRunTrace asyncQueueInit
  rw [run_qrun]
  simp

theorem stepTh_pwait_succ (k : Nat) (rs : List Val) (q : List Th) (tr : List Ev) (ip n : Nat) :
    stepTh (.pwait (k + 1) rs) ⟨q, tr, ip, n⟩ = ⟨q ++ [.pwait k rs], tr, ip, n⟩ := rfl

theorem stepTh_pwait_zero_last (rs : List Val) (q : List Th) (tr : List Ev) (ip n : Nat)
    (h : n ≤ ip) :
    stepTh (.pwait 0 rs) ⟨q, tr, ip, n⟩ = ⟨q, tr ++ [emOf rs, endEv], ip + 1, n⟩ := by
  simp [stepTh, h]

theorem stepTh_pwait_zero_more (rs : List Val) (q : List Th) (tr : List Ev) (ip n : Nat)
    (h : ¬ n ≤ ip) :
    stepTh (.pwait 0 rs) ⟨q, tr, ip, n⟩ = ⟨q, tr ++ [emOf rs], ip + 1, n⟩ := by
  simp [stepTh, h]

/-- Core induction for `asyncParallel`: with `fin` continuations already
fired (the counting iterator has been advanced `1 + fin` times) and the
pending tasks `pend` on the queue, the run emits each pending task's
completion exactly once, in some order, and then a single `END_EVENT`. -/
theorem run_par_aux (m : Nat) : ∀ (pend : List (Nat × List Val)) (tr : List Ev) (fin n : Nat),
    pend ≠ [] →
    n = fin + pend.length →
    schedMeasure (pend.map pwOf) ≤ m →
    ∃ l, List.Perm l (pend.map Prod.snd) ∧
      run ⟨pend.map pwOf, tr, 1 + fin, n⟩ = tr ++ l.map emOf ++ [endEv] := by
  induction m with
  | zero =>
    intro pend tr fin n hne hn hm
    exfalso
    cases pend with
    | nil => exact hne rfl
    | cons p rest =>
      have h1 : 1 ≤ schedMeasure ((p :: rest).map pwOf) := by
        simp [schedMeasure, pwOf, thWeight]
        omega
      omega
  | succ m ih =>
    intro pend tr fin n hne hn hm
    cases pend with
    | nil => exact absurd rfl hne
    | cons p rest =>
      obtain ⟨k, rs⟩ := p
      cases k with
      | succ k =>
        have hq : rest.map pwOf ++ [Th.pwait k rs] = (rest ++ [(k, rs)]).map pwOf := by
          simp [pwOf]
        rw [show (((k + 1, rs) :: rest).map pwOf) = Th.pwait (k + 1) rs :: rest.map pwOf
              from rfl,
            run_cons, stepTh_pwait_succ, hq]
        obtain ⟨l, hl, hrun⟩ := ih (rest ++ [(k, rs)]) tr fin n (by simp)
          (by simp only [List.length_cons] at hn; simp; omega)
          (by
            have h1 : schedMeasure (((k + 1, rs) :: rest).map pwOf) =
                (k + 2) + schedMeasure (rest.map pwOf) := by
              simp [schedMeasure, pwOf, thWeight]
              try omega
            have h2 : schedMeasure ((rest ++ [(k, rs)]).map pwOf) =
                schedMeasure (rest.map pwOf) + (k + 1) := by
              rw [← hq, schedMeasure_append]
              simp [schedMeasure, thWeight]
            omega)
        refine ⟨l, ?_, hrun⟩
        have hperm : List.Perm ((rest ++ [(k, rs)]).map Prod.snd)
            (((k + 1, rs) :: rest).map Prod.snd) := by
          simp only [List.map_append, List.map_cons, List.map_nil]
          exact List.perm_append_singleton rs (rest.map Prod.snd)
        exact hl.trans hperm
      | zero =>
        cases rest with
        | nil =>
          rw [show (((0, rs) :: ([] : List (Nat × List Val))).map pwOf) = [Th.pwait 0 rs]
                from rfl,
              run_cons,
              stepTh_pwait_zero_last rs [] tr (1 + fin) n
                (by simp only [List.length_cons, List.length_nil] at hn; omega),
              run_nil]
          exact ⟨[rs], by simp, by simp⟩
        | cons r rest' =>
          rw [show (((0, rs) :: r :: rest').map pwOf) =
                Th.pwait 0 rs :: (r :: rest').map pwOf from rfl,
              run_cons,
              stepTh_pwait_zero_more rs ((r :: rest').map pwOf) tr (1 + fin) n
                (by simp only [List.length_cons] at hn; omega)]
          obtain ⟨l, hl, hrun⟩ := ih (r :: rest') (tr ++ [emOf rs]) (fin + 1) n (by simp)
            (by simp only [List.length_cons] at hn ⊢; omega)
            (by
              have h1 : schedMeasure (((0, rs) :: r :: rest').map pwOf) =
                  1 + schedMeasure ((r :: rest').map pwOf) := by
                simp [schedMeasure, pwOf, thWeight]
              omega)
          refine ⟨rs :: l, by simpa using hl.cons rs, ?_⟩
          have hrun' : run ⟨(r :: rest').map pwOf, tr ++ [emOf rs], (1 + fin) + 1, n⟩ =
              (tr ++ [emOf rs]) ++ l.map emOf ++ [endEv] := hrun
          rw [hrun']
          simp

/-- Closed form of the full `asyncParallel` trace: the completions of all
tasks, in finishing order (some permutation of the task list), followed by
exactly one `END_EVENT`. -/
theorem asyncParallelRunTrace_eq (ts : List MTask) :
    ∃ l, List.Perm l (ts.map MTask.results) ∧
      asyncParallelRunTrace ts = l.map emOf ++ [endEv] := by
  cases ts with
  | nil => exact ⟨[], List.Perm.nil, by decide⟩
  | cons t ts' =>
    unfold asyncParallelRunTrace asyncParallelInit
    have hq : ((t :: ts').map (fun u => Th.pwait u.delay u.results) ++
        (if (t :: ts').isEmpty then [Th.pend] else [])) =
        ((t :: ts').map (fun u => (u.delay, u.results))).map pwOf := by
      simp [pwOf, List.map_map, Function.comp]
    rw [hq]
    obtain ⟨l, hl, hrun⟩ := run_par_aux
      (schedMeasure (((t :: ts').map (fun u => (u.delay, u.results))).map pwOf))
      ((t :: ts').map (fun u => (u.delay, u.results))) [] 0 ((t :: ts').length)
      (by simp) (by simp) (le_refl _)
    refine ⟨l, ?_, ?_⟩
    · have : ((t :: ts').map (fun u => (u.delay, u.results))).map Prod.snd =
          (t :: ts').map MTask.results := by
        simp [List.map_map, Function.comp]
      rw [this] at hl
      exact hl
    · have hrun' : run ⟨((t :: ts').map (fun u => (u.delay, u.results))).map pwOf,
          [], 1, (t :: ts').length⟩ = [] ++ l.map emOf ++ [endEv] := hrun
      rw [hrun']
      simp

/-- `once(END_EVENT, cb)` fires right after the first `END_EVENT` of a
trace that has the form `l ++ END_EVENT :: rest` with no earlier
`END_EVENT`. -/
theorem attachOnceEnd_cons_ne (e : Ev) (tr : List Ev) (h : ¬ e = endEv) :
    attachOnceEnd (e :: tr) = e :: attachOnceEnd tr := by
  simp [attachOnceEnd, h]

theorem attachOnceEnd_cons_end (tr : List Ev) :
    attachOnceEnd (endEv :: tr) = endEv :: Ev.cb :: tr := by
  simp [attachOnceEnd]

theorem attachOnceEnd_append (l rest : List Ev) (h : endEv ∉ l) :
    attachOnceEnd (l ++ endEv :: rest) = l ++ endEv :: Ev.cb :: rest := by
  induction l with
  | nil => simpa using attachOnceEnd_cons_end rest
  | cons e l ih =>
    simp only [List.mem_cons, not_or] at h
    have h1 : ¬ e = endEv := fun heq => h.1 heq.symm
    rw [List.cons_append, attachOnceEnd_cons_ne e _ h1, ih h.2, List.cons_append]

/-- A listener registered with `.once(END_EVENT, cb)` fires whenever the
trace contains an `END_EVENT` emission. -/
theorem cb_mem_attachOnceEnd (tr : List Ev) (h : endEv ∈ tr) :
    Ev.cb ∈ attachOnceEnd tr := by
  induction tr with
  | nil => simp at h
  | cons e rest ih =>
    by_cases he : e = endEv
    · simp [attachOnceEnd, he]
    · have h2 : endEv ∈ rest := by
        rcases List.mem_cons.mp h with h1 | h1
        · exact absurd h1.symm he
        · exact h1
      simp only [attachOnceEnd, if_neg he]
      exact List.mem_cons_of_mem _ (ih h2)

/-- Claim C4.  For every finite task list given to the sequential orchestrator
(`asyncQueue`), tasks are executed strictly one at a time (the scheduler
holds a single `asyncQueue` thunk, and the next task is only scheduled
from the previous task's continuation), per-task completion events fire in
submission order, and exactly one aggregate `END_EVENT` is broadcast after
the last task's continuation fires — or, for the empty task list, without
running any task: the trace is always the per-task emissions in
submission order followed by a single `END_EVENT`; in particular, for the
spec's scenario of three tasks A, B, C invoking their continuation
synchronously with distinct values, the completions fire A, B, C and then
the aggregate event, and for the empty list the trace is the aggregate
event alone. -/
theorem claim_C4_asyncQueue_sequential :
    (∀ ts : List MTask, asyncQueueRunTrace ts = ts.map emOfT ++ [endEv]) ∧
    asyncQueueRunTrace [⟨0, [.nat 1]⟩, ⟨0, [.nat 2]⟩, ⟨0, [.nat 3]⟩] =
      [.emit (.nat 1) [], .emit (.nat 2) [], .emit (.nat 3) [], endEv] ∧
    asyncQueueRunTrace [] = [endEv] :=
  ⟨asyncQueueRunTrace_eq, by decide, by decide⟩

/-- Claim C5.  For every finite task list given to the concurrent orchestrator
(`asyncParallel`), every task is started (each deferred onto the
scheduler as a queued thunk, not called synchronously — the trace at
return time is empty), a per-task completion event fires per task in
finishing order (some permutation of the submitted tasks), and the
aggregate `END_EVENT` is broadcast exactly once, only after every task's
continuation has fired (it is the last element of the trace) — or
immediately (as the sole deferred emission) if the task list is empty.
The spec's scenario of two tasks where B's continuation fires before A's
yields completions B then A, then the aggregate event. -/
theorem claim_C5_asyncParallel_concurrent :
    (∀ ts : List MTask,
      (asyncParallelInit ts).trace = [] ∧
      (asyncParallelInit ts).queue =
        ts.map (fun t => Th.pwait t.delay t.results) ++
          (if ts.isEmpty then [Th.pend] else []) ∧
      ∃ l, List.Perm l (ts.map MTask.results) ∧
        asyncParallelRunTrace ts = l.map emOf ++ [endEv]) ∧
    asyncParallelRunTrace [⟨2, [.nat 1]⟩, ⟨0, [.nat 2]⟩] =
      [.emit (.nat 2) [], .emit (.nat 1) [], endEv] ∧
    asyncParallelRunTrace [] = [endEv] :=
  ⟨fun ts => ⟨rfl, rfl, asyncParallelRunTrace_eq ts⟩, by decide, by decide⟩

/-- Claim C9.  Neither orchestrator ever emits the `DONE_EVENT` symbol of its
own accord: the per-task completion notification is emitted under the
task's first result value as event name (with the remaining values as
arguments, as the last conjunct states definitionally), so a `DONE_EVENT`
emission appears in a trace only if some task explicitly passed that
symbol as its first result. -/
theorem claim_C9_done_event_never_emitted (tq tp : List MTask)
    (nmq : Val) (argsq : List Val) (nmp : Val) (argsp : List Val)
    (hq : Ev.emit nmq argsq ∈ asyncQueueRunTrace tq) (hqd : nmq = Val.doneSym)
    (hp : Ev.emit nmp argsp ∈ asyncParallelRunTrace tp) (hpd : nmp = Val.doneSym) :
    (∃ t ∈ tq, t.results.headD Val.undef = Val.doneSym) ∧
    (∃ t ∈ tp, t.results.headD Val.undef = Val.doneSym) ∧
    (∀ rs : List Val, emOf rs = Ev.emit (rs.headD Val.undef) (rs.drop 1)) := by
  refine ⟨?_, ?_, fun rs => rfl⟩
  · rw [asyncQueueRunTrace_eq] at hq
    rcases List.mem_append.mp hq with h1 | h1
    · obtain ⟨t, ht, hemit⟩ := List.mem_map.mp h1
      refine ⟨t, ht, ?_⟩
      have : t.results.headD Val.undef = nmq := by
        have := hemit
        simp only [emOfT, emOf, Ev.emit.injEq] at this
        exact this.1
      rw [this, hqd]
    · simp only [List.mem_singleton] at h1
      have : nmq = Val.endSym := by
        simp only [endEv, Ev.emit.injEq] at h1
        exact h1.1
      rw [hqd] at this
      exact absurd this (by simp)
  · obtain ⟨l, hl, heq⟩ := asyncParallelRunTrace_eq tp
    rw [heq] at hp
    rcases List.mem_append.mp hp with h1 | h1
    · obtain ⟨rs, hrs, hemit⟩ := List.mem_map.mp h1
      have hmem : rs ∈ tp.map MTask.results := hl.subset hrs
      obtain ⟨t, ht, hres⟩ := List.mem_map.mp hmem
      refine ⟨t, ht, ?_⟩
      have : rs.headD Val.undef = nmp := by
        simp only [emOf, Ev.emit.injEq] at hemit
        exact hemit.1
      rw [hres, this, hpd]
    · simp only [List.mem_singleton] at h1
      have : nmp = Val.endSym := by
        simp only [endEv, Ev.emit.injEq] at h1
        exact h1.1
      rw [hpd] at this
      exact absurd this (by simp)

/-- Witness for C9 at a concrete input: a task that explicitly passes
`DONE_EVENT` as its first result value. -/
theorem claim_C9_witness :
    (∃ t ∈ [(⟨0, [Val.doneSym]⟩ : MTask)], t.results.headD Val.undef = Val.doneSym) ∧
    (∃ t ∈ [(⟨0, [Val.doneSym]⟩ : MTask)], t.results.headD Val.undef = Val.doneSym) ∧
    (∀ rs : List Val, emOf rs = Ev.emit (rs.headD Val.undef) (rs.drop 1)) :=
  claim_C9_done_event_never_emitted
    [⟨0, [Val.doneSym]⟩] [⟨0, [Val.doneSym]⟩]
    Val.doneSym [] Val.doneSym []
    (by decide) rfl (by decide) rfl

/-- Claim C10.  Neither orchestrator emits any event synchronously during the
call itself: the traces at return time (`asyncQueueInit`,
`asyncParallelInit`) are empty, every emission happening in later
scheduler turns, so a `once(END_EVENT, callback)` listener attached to
the returned emitter immediately after the call — as `HttpForm._write`
and `_final` do — always observes the aggregate-completion signal: its
callback fires in the attached trace. -/
theorem claim_C10_no_synchronous_emission (tq tp : List MTask) :
    (asyncQueueInit tq).trace = [] ∧ (asyncParallelInit tp).trace = [] ∧
    Ev.cb ∈ attachOnceEnd (asyncQueueRunTrace tq) ∧
    Ev.cb ∈ attachOnceEnd (asyncParallelRunTrace tp) := by
  refine ⟨rfl, rfl, ?_, ?_⟩
  · refine cb_mem_attachOnceEnd _ ?_
    rw [asyncQueueRunTrace_eq]
    exact List.mem_append.mpr (Or.inr (List.mem_singleton.mpr rfl))
  · refine cb_mem_attachOnceEnd _ ?_
    obtain ⟨l, hl, heq⟩ := asyncParallelRunTrace_eq tp
    rw [heq]
    exact List.mem_append.mpr (Or.inr (List.mem_singleton.mpr rfl))

/-- A successful `findSub` returns a position at or after the running
index. -/
theorem findSub_ge (val : List Nat) : ∀ (l : List Nat) (i j : Nat),
    findSub val l i = some j → i ≤ j := by
  intro l
  induction l with
  | nil =>
    intro i j h
    by_cases hv : val = [] <;> simp [findSub, hv] at h
    omega
  | cons b rest ih =>
    intro i j h
    by_cases hp : val <+: (b :: rest)
    · simp [findSub, hp] at h
      omega
    · simp only [findSub, if_neg hp] at h
      have := ih (i + 1) j h
      omega

/-- A successful `findSub` really points at an occurrence. -/
theorem findSub_prefix (val : List Nat) : ∀ (l : List Nat) (i j : Nat),
    findSub val l i = some j → val <+: l.drop (j - i) := by
  intro l
  induction l with
  | nil =>
    intro i j h
    by_cases hv : val = [] <;> simp [findSub, hv] at h
    simp [hv]
  | cons b rest ih =>
    intro i j h
    by_cases hp : val <+: (b :: rest)
    · simp only [findSub, if_pos hp, Option.some.injEq] at h
      subst h
      simpa using hp
    · simp only [findSub, if_neg hp] at h
      have hge := findSub_ge val rest (i + 1) j h
      have := ih (i + 1) j h
      have hji : j - i = (j - (i + 1)) + 1 := by omega
      rw [hji]
      simpa using this

/-- `buf.indexOf` either fails with `-1` or returns a genuine first
occurrence position at or after the offset. -/
theorem bufIndexOf_neg_or (buf val : List Nat) (off : Nat) :
    bufIndexOf buf val off = -1 ∨
    (∃ j : Nat, bufIndexOf buf val off = (j : Int) ∧ off ≤ j ∧ val <+: buf.drop j) := by
  unfold bufIndexOf
  cases h : findSub val (buf.drop off) off with
  | none => exact Or.inl rfl
  | some j =>
    refine Or.inr ⟨j, rfl, findSub_ge _ _ _ _ h, ?_⟩
    have hp := findSub_prefix _ _ _ _ h
    have hge := findSub_ge _ _ _ _ h
    have heq : (buf.drop off).drop (j - off) = buf.drop j := by
      rw [List.drop_drop]
      congr 1
      omega
    rwa [heq] at hp

/-- A nonempty occurrence fits inside the buffer. -/
theorem occ_fits (buf val : List Nat) (j : Nat) (hv : val ≠ []) (hp : val <+: buf.drop j) :
    j + val.length ≤ buf.length := by
  have h1 : val.length ≤ (buf.drop j).length := hp.length_le
  have h2 : (buf.drop j).length = buf.length - j := List.length_drop _ _
  have h3 : 0 < val.length := List.length_pos.mpr hv
  omega

/-- Every view yielded by the `splitBuffer` loop has either the failed
`-1` end index or an end index at a real separator occurrence that fits
in the buffer. -/
theorem splitBufferGo_endIdx (buf sep : List Nat) (hs : sep ≠ []) :
    ∀ (f st : Nat) (r : SplitResult), r ∈ splitBufferGo buf sep f st →
    r.endIdx = -1 ∨ (∃ j : Nat, r.endIdx = (j : Int) ∧ j + sep.length ≤ buf.length) := by
  intro f
  induction f with
  | zero =>
    intro st r hr
    simp only [splitBufferGo, List.mem_singleton] at hr
    subst hr
    exact Or.inl rfl
  | succ f ih =>
    intro st r hr
    rcases bufIndexOf_neg_or buf sep st with hneg | ⟨j, hj, hge, hp⟩
    · simp only [splitBufferGo, hneg, if_pos, List.mem_singleton] at hr
      subst hr
      exact Or.inl rfl
    · simp only [splitBufferGo, hj] at hr
      have hne : ¬((j : Int) = -1) := by omega
      rw [if_neg hne] at hr
      rcases List.mem_cons.mp hr with h1 | h1
      · subst h1
        exact Or.inr ⟨j, rfl, occ_fits buf sep j hs hp⟩
      · have h2 : r ∈ splitBufferGo buf sep f (j + sep.length) := by
          simpa using h1
        exact ih _ r h2

/-- The cursor returned by a successful `NEW_FILE_METHOD` stays inside the
buffer, except in the degenerate case where the third line was the final
`-1`-view and the cursor is rewound to `(-1) + 2 = 1`. -/
theorem newFileMethod_endv_le (buf : List Nat) (st : Nat) (file : HFile) (e2 : Nat)
    (h : newFileMethod buf st = .ok (file, e2)) : e2 ≤ buf.length ∨ e2 = 1 := by
  unfold newFileMethod at h
  split at h
  · exact absurd h (by simp)
  case _ first heq1 =>
    split at h
    · exact absurd h (by simp)
    case _ fn heq2 =>
      split at h
      · exact absurd h (by simp)
      case _ second heq3 =>
        split at h
        · exact absurd h (by simp)
        case _ ct heq4 =>
          split at h
          · exact absurd h (by simp)
          case _ third heq5 =>
            simp only [Except.ok.injEq, Prod.mk.injEq] at h
            have he2 : e2 = (third.endIdx + 2).toNat := h.2.symm
            have hmem : third ∈ splitBuffer buf eolBytes st := by
              have := List.getElem?_mem heq5
              exact this
            have hcases := splitBufferGo_endIdx buf eolBytes (by decide)
              (buf.length + 1) st third hmem
            rcases hcases with hneg | ⟨j, hj, hfits⟩
            · rw [hneg] at he2
              exact Or.inr (by simp [he2])
            · rw [hj] at he2
              refine Or.inl ?_
              have : ((j : Int) + 2).toNat = j + 2 := by omega
              rw [this] at he2
              have heol : eolBytes.length = 2 := by decide
              omega

theorem writeScanGo_zero (boundary chunk : List Nat) (files : List HFile)
    (queue : List WTask) (endv : Nat) (start : Int) :
    writeScanGo boundary chunk 0 files queue endv start = none := rfl

theorem writeScanGo_neg (boundary chunk : List Nat) (fuel : Nat) (files : List HFile)
    (queue : List WTask) (endv : Nat) :
    writeScanGo boundary chunk (fuel + 1) files queue endv (-1) =
      some (writeTrailing chunk files queue endv) := by
  simp [writeScanGo]

theorem writeScanGo_found (boundary chunk : List Nat) (fuel : Nat) (files : List HFile)
    (queue : List WTask) (endv s : Nat) :
    writeScanGo boundary chunk (fuel + 1) files queue endv (s : Int) =
      (if chunk.length < s + boundary.length + sepBytes.length then
        some (.error .compareOutOfRange)
      else if (chunk.drop (s + boundary.length)).take sepBytes.length = sepBytes then
        some (.ok (files,
          if 0 < files.length then queue ++ [⟨files.length - 1, endv, s⟩] else queue))
      else
        match newFileMethod chunk (s + boundary.length + eolBytes.length) with
        | .error e => some (.error e)
        | .ok (file, e2) =>
          writeScanGo boundary chunk fuel (files ++ [file])
            (if 0 < files.length then queue ++ [⟨files.length - 1, endv, s⟩] else queue)
            e2 (bufIndexOf chunk boundary e2)) := by
  have h1 : ¬((s : Int) = -1) := by omega
  simp only [writeScanGo, if_neg h1, Int.toNat_natCast]

/-- Appending the freshly pushed write task keeps the target indices
strictly increasing, because every previously queued task targets a file
that existed before the last header parse grew the file list. -/
theorem chain_append_one (queue : List WTask) (nt : WTask) (files : List HFile)
    (hchain : List.Chain' (fun a b => a.tgt < b.tgt) queue)
    (hlast : ∀ t, queue.getLast? = some t → t.tgt + 2 ≤ files.length)
    (hnt : nt.tgt = files.length - 1) (hpos : 0 < files.length) :
    List.Chain' (fun a b => a.tgt < b.tgt) (queue ++ [nt]) := by
  rw [List.chain'_append]
  refine ⟨hchain, List.chain'_singleton _, ?_⟩
  intro x hx y hy
  simp only [List.head?_cons, Option.mem_def, Option.some.injEq] at hy
  subst hy
  have hxl := hlast x (Option.mem_def.mp hx)
  omega

/-- Invariant of the `_write` scan loop: whenever the loop completes
without throwing, the queued write tasks target strictly increasing file
indices, each target is a live file, and every task's byte range is a
well-formed sub-range of the chunk. -/
theorem writeScanGo_ok (boundary chunk : List Nat) : ∀ (fuel : Nat) (files : List HFile)
    (queue : List WTask) (endv : Nat) (files' : List HFile) (queue' : List WTask),
    writeScanGo boundary chunk fuel files queue endv (bufIndexOf chunk boundary endv) =
      some (.ok (files', queue')) →
    endv ≤ chunk.length →
    List.Chain' (fun a b => a.tgt < b.tgt) queue →
    (∀ t ∈ queue, t.tgt < files.length ∧ t.lo ≤ t.hi ∧ t.hi ≤ chunk.length) →
    (∀ t, queue.getLast? = some t → t.tgt + 2 ≤ files.length) →
    List.Chain' (fun a b => a.tgt < b.tgt) queue' ∧
    (∀ t ∈ queue', t.tgt < files'.length ∧ t.lo ≤ t.hi ∧ t.hi ≤ chunk.length) := by
  intro fuel
  induction fuel with
  | zero =>
    intro files queue endv files' queue' h
    rw [writeScanGo_zero] at h
    exact absurd h (by simp)
  | succ fuel ih =>
    intro files queue endv files' queue' h hend hchain hbound hlast
    rcases bufIndexOf_neg_or chunk boundary endv with hneg | ⟨s, hs, hge, hp⟩
    · rw [hneg, writeScanGo_neg] at h
      simp only [Option.some.injEq] at h
      unfold writeTrailing at h
      by_cases ht : endv < chunk.length
      · rw [if_pos ht] at h
        by_cases hf : files.length = 0
        · rw [if_pos hf] at h
          exact absurd h (by simp)
        · rw [if_neg hf] at h
          simp only [Except.ok.injEq, Prod.mk.injEq] at h
          obtain ⟨hfe, hqe⟩ := h
          subst hfe
          subst hqe
          constructor
          · exact chain_append_one queue _ files hchain hlast rfl (by omega)
          · intro t htm
            rcases List.mem_append.mp htm with h1 | h1
            · exact hbound t h1
            · simp only [List.mem_singleton] at h1
              subst h1
              exact ⟨by show files.length - 1 < files.length; omega,
                by show endv ≤ chunk.length; omega,
                by show chunk.length ≤ chunk.length; omega⟩
      · rw [if_neg ht] at h
        simp only [Except.ok.injEq, Prod.mk.injEq] at h
        obtain ⟨hfe, hqe⟩ := h
        subst hfe
        subst hqe
        exact ⟨hchain, hbound⟩
    · rw [hs, writeScanGo_found] at h
      by_cases hrange : chunk.length < s + boundary.length + sepBytes.length
      · rw [if_pos hrange] at h
        exact absurd h (by simp)
      · rw [if_neg hrange] at h
        have hslen : s + boundary.length + sepBytes.length ≤ chunk.length := by omega
        have hsep2 : sepBytes.length = 2 := by decide
        by_cases hterm : (chunk.drop (s + boundary.length)).take sepBytes.length = sepBytes
        · rw [if_pos hterm] at h
          simp only [Option.some.injEq, Except.ok.injEq, Prod.mk.injEq] at h
          obtain ⟨hfe, hqe⟩ := h
          subst hfe
          subst hqe
          by_cases hpos : 0 < files.length
          · rw [if_pos hpos]
            constructor
            · exact chain_append_one queue _ files hchain hlast rfl hpos
            · intro t htm
              rcases List.mem_append.mp htm with h1 | h1
              · exact hbound t h1
              · simp only [List.mem_singleton] at h1
                subst h1
                exact ⟨by show files.length - 1 < files.length; omega,
                  by show endv ≤ s; omega,
                  by show s ≤ chunk.length; omega⟩
          · rw [if_neg hpos]
            exact ⟨hchain, hbound⟩
        · rw [if_neg hterm] at h
          cases hnfm : newFileMethod chunk (s + boundary.length + eolBytes.length) with
          | error e =>
            rw [hnfm] at h
            exact absurd h (by simp)
          | ok pr =>
            obtain ⟨file, e2⟩ := pr
            rw [hnfm] at h
            have he2 : e2 ≤ chunk.length := by
              rcases newFileMethod_endv_le chunk _ file e2 hnfm with h1 | h1
              · exact h1
              · omega
            by_cases hpos : 0 < files.length
            · rw [if_pos hpos] at h
              refine ih (files ++ [file]) (queue ++ [⟨files.length - 1, endv, s⟩]) e2
                files' queue' h he2 ?_ ?_ ?_
              · exact chain_append_one queue _ files hchain hlast rfl hpos
              · intro t htm
                rcases List.mem_append.mp htm with h1 | h1
                · have := hbound t h1
                  simp only [List.length_append, List.length_singleton]
                  exact ⟨by omega, this.2.1, this.2.2⟩
                · simp only [List.mem_singleton] at h1
                  subst h1
                  exact ⟨by show files.length - 1 < (files ++ [file]).length; simp; omega,
                    by show endv ≤ s; omega,
                    by show s ≤ chunk.length; omega⟩
              · intro t htl
                rw [List.getLast?_concat] at htl
                simp only [Option.some.injEq] at htl
                subst htl
                simp
                omega
            · rw [if_neg hpos] at h
              refine ih (files ++ [file]) queue e2 files' queue' h he2 hchain ?_ ?_
              · intro t htm
                have := hbound t htm
                simp only [List.length_append, List.length_singleton]
                exact ⟨by omega, this.2.1, this.2.2⟩
              · intro t htl
                have := hlast t htl
                omega

/-- Executing queued writes never changes the number of Parts. -/
theorem runWrites_length (chunk : List Nat) : ∀ (queue : List WTask) (files : List HFile),
    (runWrites chunk queue files).length = files.length := by
  intro queue
  induction queue with
  | nil => intro files; rfl
  | cons t ts ih =>
    intro files
    simp only [runWrites]
    cases hx : files[t.tgt]? with
    | none => rw [ih]
    | some f => rw [ih, List.length_set]

/-- Sequential execution of the queued writes appends to each Part's sink
exactly the slices of the tasks that target it, in submission order. -/
theorem runWrites_content (chunk : List Nat) : ∀ (queue : List WTask) (files : List HFile)
    (j : Nat), (∀ t ∈ queue, t.tgt < files.length) →
    ((runWrites chunk queue files).getD j hfDummy).content =
      ((files.getD j hfDummy).content) ++
        ((queue.filter (fun t => t.tgt == j)).map
          (fun t => chunkSlice chunk t.lo t.hi)).flatten := by
  intro queue
  induction queue with
  | nil =>
    intro files j hb
    simp [runWrites]
  | cons t ts ih =>
    intro files j hb
    have htgt : t.tgt < files.length := hb t (List.mem_cons_self t ts)
    have hsome : files[t.tgt]? = some files[t.tgt] := List.getElem?_eq_getElem htgt
    simp only [runWrites, hsome]
    have hb2 : ∀ u ∈ ts, u.tgt <
        (files.set t.tgt ⟨files[t.tgt].filename, files[t.tgt].contentType,
          files[t.tgt].content ++ chunkSlice chunk t.lo t.hi⟩).length := by
      intro u hu
      rw [List.length_set]
      exact hb u (List.mem_cons_of_mem _ hu)
    rw [ih _ j hb2]
    by_cases hj : t.tgt = j
    · subst hj
      have hset : (files.set t.tgt ⟨files[t.tgt].filename, files[t.tgt].contentType,
          files[t.tgt].content ++ chunkSlice chunk t.lo t.hi⟩)[t.tgt]? =
          some ⟨files[t.tgt].filename, files[t.tgt].contentType,
            files[t.tgt].content ++ chunkSlice chunk t.lo t.hi⟩ :=
        List.getElem?_set_eq_of_lt _ htgt
      rw [List.getD_eq_getElem?_getD, hset]
      rw [List.getD_eq_getElem?_getD, hsome]
      have hfil : (t :: ts).filter (fun u => u.tgt == t.tgt) =
          t :: ts.filter (fun u => u.tgt == t.tgt) := by
        simp [List.filter_cons]
      rw [hfil]
      simp [List.append_assoc]
    · have hset : (files.set t.tgt ⟨files[t.tgt].filename, files[t.tgt].contentType,
          files[t.tgt].content ++ chunkSlice chunk t.lo t.hi⟩)[j]? = files[j]? :=
        List.getElem?_set_ne hj
      rw [List.getD_eq_getElem?_getD, hset, ← List.getD_eq_getElem?_getD]
      have hfil : (t :: ts).filter (fun u => u.tgt == j) =
          ts.filter (fun u => u.tgt == j) := by
        simp [List.filter_cons, hj]
      rw [hfil]

/-- The trace of `asyncQueue(queue).once(END_EVENT, callback)` over the
write tasks of one chunk: every submitted write completes (emitting its
argument-less callback notification), in submission order, then the
single `END_EVENT` fires, and only then the chunk's completion callback
— whatever backpressure delays the sinks impose. -/
theorem writeTrace_eq (queue : List WTask) (ds : Nat → Nat) :
    writeTrace queue ds =
      List.replicate queue.length (Ev.emit .undef []) ++ [endEv, .cb] := by
  unfold writeTrace
  rw [asyncQueueRunTrace_eq]
  have h1 : (writeTasksOf queue ds).map emOfT =
      List.replicate queue.length (Ev.emit .undef []) := by
    unfold writeTasksOf
    rw [List.map_map]
    have h0 : (emOfT ∘ fun i => (⟨ds i, []⟩ : MTask)) = fun _ => Ev.emit .undef [] := by
      funext i
      rfl
    rw [h0, List.map_const']
    rw [List.length_range]
  rw [h1]
  have h2 : endEv ∉ List.replicate queue.length (Ev.emit .undef []) := by
    intro hmem
    have := List.eq_of_mem_replicate hmem
    simp [endEv] at this
  have h3 := attachOnceEnd_append (List.replicate queue.length (Ev.emit .undef [])) [] h2
  simpa using h3

/-- Claim C2.  For every chunk handed to `HttpForm._write` on which the
scan completes without throwing, all write tasks identified during the
scan are the queue submitted to the sequential orchestrator, whose run
completes every one of them before the single `END_EVENT`, after which
only the chunk's completion callback fires (first conjunct, for every
assignment of backpressure delays); the write targets are strictly
increasing Part indices (each Part receives at most one write per chunk,
so bytes reach each Part's sink in ascending chunk-position order), every
task's byte range is a well-formed sub-range of the chunk, and executing
the queue sequentially appends to each Part's sink exactly the slices of
its tasks in submission (wire) order. -/
theorem claim_C2_write_orchestration (boundary chunk : List Nat) (files files' : List HFile)
    (queue : List WTask) (ds : Nat → Nat)
    (h : writeScan boundary files chunk = some (.ok (files', queue))) :
    writeTrace queue ds =
      List.replicate queue.length (Ev.emit .undef []) ++ [endEv, .cb] ∧
    List.Chain' (fun a b => a.tgt < b.tgt) queue ∧
    (∀ t ∈ queue, t.tgt < files'.length ∧ t.lo ≤ t.hi ∧ t.hi ≤ chunk.length) ∧
    (∀ j : Nat, ((runWrites chunk queue files').getD j hfDummy).content =
      ((files'.getD j hfDummy).content) ++
        ((queue.filter (fun t => t.tgt == j)).map
          (fun t => chunkSlice chunk t.lo t.hi)).flatten) := by
  unfold writeScan at h
  have hscan := writeScanGo_ok boundary chunk (chunk.length + 2) files [] 0 files' queue h
    (by omega) List.chain'_nil (by simp) (by simp)
  refine ⟨writeTrace_eq queue ds, hscan.1, hscan.2, ?_⟩
  intro j
  exact runWrites_content chunk queue files' j (fun t ht => (hscan.2 t ht).1)

/-- Witness for claim C2 at the single-file scenario chunk. -/
theorem claim_C2_witness :
    writeTrace exQueueC1 (fun _ => 1) =
      List.replicate exQueueC1.length (Ev.emit .undef []) ++ [endEv, .cb] ∧
    List.Chain' (fun a b => a.tgt < b.tgt) exQueueC1 ∧
    ((runWrites exChunkC1 exQueueC1 [exFileC1]).getD 0 hfDummy).content =
      (([exFileC1].getD 0 hfDummy).content) ++
        ((exQueueC1.filter (fun t => t.tgt == 0)).map
          (fun t => chunkSlice exChunkC1 t.lo t.hi)).flatten :=
  ⟨(claim_C2_write_orchestration exBoundary exChunkC1 [] [exFileC1] exQueueC1
      (fun _ => 1) (by decide)).1,
   (claim_C2_write_orchestration exBoundary exChunkC1 [] [exFileC1] exQueueC1
      (fun _ => 1) (by decide)).2.1,
   (claim_C2_write_orchestration exBoundary exChunkC1 [] [exFileC1] exQueueC1
      (fun _ => 1) (by decide)).2.2.2 0⟩

/-- Claim C1 (code bug).  On the spec's single-file scenario chunk the
decoder produces exactly one Part with filename `a.txt` and content type
`text/plain` and both the per-chunk and the finalization callbacks fire,
but the Part's backing file receives the bytes `hello\r\n` — the CRLF
preceding the terminal boundary is forwarded to the sink — not exactly
the bytes `hello` the claim states. -/
theorem claim_C1_single_file_scenario :
    writeScan exBoundary [] exChunkC1 = some (.ok ([exFileC1], exQueueC1)) ∧
    exFileC1.filename = strBytes "a.txt" ∧
    exFileC1.contentType = strBytes "text/plain" ∧
    chunkSlice exChunkC1 100 107 = strBytes "hello\r\n" ∧
    runWrites exChunkC1 exQueueC1 [exFileC1] =
      [⟨strBytes "a.txt", strBytes "text/plain", strBytes "hello\r\n"⟩] ∧
    ¬ strBytes "hello\r\n" = strBytes "hello" ∧
    writeTrace exQueueC1 (fun _ => 0) = [Ev.emit .undef [], endEv, .cb] ∧
    finalTrace [⟨strBytes "a.txt", strBytes "text/plain", strBytes "hello\r\n"⟩]
      (fun _ => 0) = [Ev.emit .undef [], endEv, .cb] := by
  refine ⟨by decide, by decide, by decide, by decide, by decide, by decide, by decide,
    by decide⟩

/-- Claim C3 (code bug).  `splitBuffer` on buffer `a,b` with separator `,`
yields the proper view `[0, 1)` and then a final view whose `end` is the
failed `indexOf` result `-1` — not the buffer length `3` — so the final
view denotes the empty string under `toString` instead of the tail `b`
(last conjunct: the view `[2, 3)` the contract describes would denote
`b`). -/
theorem claim_C3_splitBuffer_final_view :
    splitBuffer exBufC3 (strBytes ",") 0 =
      [⟨exBufC3, 0, 1⟩, ⟨exBufC3, 2, -1⟩] ∧
    (splitBuffer exBufC3 (strBytes ",") 0).getLast? = some ⟨exBufC3, 2, -1⟩ ∧
    (SplitResult.mk exBufC3 2 (-1)).toStr = [] ∧
    ¬ (SplitResult.mk exBufC3 2 (-1)).endIdx = (exBufC3.length : Int) ∧
    (SplitResult.mk exBufC3 2 3).toStr = strBytes "b" := by
  refine ⟨by decide, by decide, by decide, by decide, by decide⟩

/-- Claim C6.  For the body consisting solely of the terminal boundary
`--BOUNDARY--` delivered as one chunk, the scan completes without error
and produces zero Parts and zero write tasks, the per-chunk callback
fires (after the orchestrator's `END_EVENT` over the empty queue), and
finalization over the empty Part list also completes. -/
theorem claim_C6_empty_body :
    writeScan exBoundary [] (strBytes "--BOUNDARY--") = some (.ok ([], [])) ∧
    writeTrace [] (fun _ => 0) = [endEv, .cb] ∧
    finalTrace [] (fun _ => 0) = [endEv, .cb] := by
  refine ⟨by decide, by decide, by decide⟩

/-- Claim C7.  Whenever the scan loop of `_write` is at a non-terminal
boundary occurrence whose following header lines fail their expected
pattern (the disposition line has no `filename="..."` match, or the
content-type line has no `type/subtype` match), the regular-expression
match result is `null` and dereferencing it throws out of `_write`: the
scan returns that exception rather than a structured error, whatever
state the scan had accumulated. -/
theorem claim_C7_malformed_header_throws (boundary chunk : List Nat) (files : List HFile)
    (queue : List WTask) (endv fuel s : Nat) (e : WErr)
    (hfound : bufIndexOf chunk boundary endv = (s : Int))
    (hrange : ¬ chunk.length < s + boundary.length + sepBytes.length)
    (hnonterm : ¬ (chunk.drop (s + boundary.length)).take sepBytes.length = sepBytes)
    (hbad : newFileMethod chunk (s + boundary.length + eolBytes.length) = .error e)
    (_hkind : e = .filenameNoMatch ∨ e = .contentTypeNoMatch) :
    writeScanGo boundary chunk (fuel + 1) files queue endv
      (bufIndexOf chunk boundary endv) = some (.error e) := by
  rw [hfound, writeScanGo_found, if_neg hrange, if_neg hnonterm, hbad]

/-- Witness for claim C7: a chunk whose first header line is malformed
makes the whole `_write` scan throw. -/
theorem claim_C7_witness :
    writeScan exBoundary [] exChunkBadHeader = some (.error .filenameNoMatch) :=
  claim_C7_malformed_header_throws exBoundary exChunkBadHeader [] [] 0
    (exChunkBadHeader.length + 1) 0 .filenameNoMatch (by decide) (by decide) (by decide)
    (by decide) (Or.inl rfl)

/-- Counterexample to claim C8 as stated: the empty chunk contains no
boundary occurrence and is delivered with no Part created, yet `_write`
does not throw — the scan returns successfully with no files and no
writes. -/
theorem claim_C8_counterexample :
    bufIndexOf [] exBoundary 0 = -1 ∧
    writeScan exBoundary [] [] = some (.ok ([], [])) := by
  refine ⟨by decide, by decide⟩

/-- Claim C8 (amended: for non-empty chunks).  If a non-empty chunk
containing no occurrence of the boundary reaches `_write` while the
files sequence is empty, the trailing-bytes push reads `.write` on the
`undefined` `lastFile` and throws a TypeError instead of silently
discarding the preamble bytes. -/
theorem claim_C8_preamble_throws (boundary chunk : List Nat) (hne : chunk ≠ [])
    (hnb : bufIndexOf chunk boundary 0 = -1) :
    writeScan boundary [] chunk = some (.error .lastFileUndefined) := by
  unfold writeScan
  rw [hnb]
  rw [show chunk.length + 2 = (chunk.length + 1) + 1 from rfl, writeScanGo_neg]
  unfold writeTrailing
  have hlen : 0 < chunk.length := List.length_pos.mpr hne
  rw [if_pos hlen, if_pos (show ([] : List HFile).length = 0 from rfl)]

/-- Witness for the amended claim C8 at a concrete preamble-only chunk. -/
theorem claim_C8_witness :
    writeScan exBoundary [] exChunkPreamble = some (.error .lastFileUndefined) :=
  claim_C8_preamble_throws exBoundary exChunkPreamble (by decide) (by decide)
